import Mathlib

/-!
Verification of the batching pipeline with ordered commit
(`src/buff_reader/task_expected.go`, first variant, lines 1-224).

The pipeline has three stages connected by channels:
  * `runNext` (lines 78-133): pulls `(items, cookie, err)` triples from the
    `Producer`, accumulates them in a local buffer, and emits `batch` values
    carrying a strictly increasing sequence number;
  * `runProcess` (lines 135-161): a worker pool that calls `Consumer.Process`
    on each batch and forwards the batch unmodified — its only effect on the
    data that reaches the committer is an arbitrary reordering of the batch
    stream, which we model as an arbitrary permutation of `runNext`'s output;
  * `runCommit` (lines 163-201): receives processed batches in arbitrary
    arrival order, holds early arrivals in a reorder buffer keyed by sequence
    number, and calls `Producer.Commit` on the cookies strictly in sequence
    order.

The embedding is sequential and models one terminating execution trace:
  * the `Producer.Next` call stream is a list of `NextRes` values;
  * `Producer.Commit` outcomes are a function `ok : Int → Bool`
    (`true` = the commit call returns nil);
  * context cancellation (`readChanWithContext` / `writeChanWithContext`
    returning `ctx.Err()`) is not modelled: every claim below is about runs in
    which the channels deliver the data and the run ends by channel close or
    by a fatal stage error, and on such runs the context helpers behave as
    plain channel operations.
Cookies are Go `int` values, modelled as `Int`; sequence numbers are assigned
by a counter that starts at 0 and only increments, modelled as `Nat`.
-/

set_option maxRecDepth 4000

/-- The error values of `task_expected.go` lines 24-30 that a pipeline stage
can return (`ErrEofCommitCookie` is a sentinel consumed inside `runNext`, not
a stage result, so it is represented in `NextRes` instead). -/
inductive PipeErr where
  | nextFailed
  | processFailed
  | commitFailed
  | commitSeqViolated
deriving DecidableEq, Repr

/-- The result of one `Producer.Next()` call (line 88): either data with an
acknowledgment cookie, the end-of-data sentinel `ErrEofCommitCookie`, or any
other error. -/
inductive NextRes (α : Type) where
  | data (items : List α) (cookie : Int)
  | eof
  | fail
deriving DecidableEq, Repr

/-- The Go struct `batch` (lines 42-46): sequence number, data items, and the
cookies to acknowledge, in pull order. -/
structure Batch (α : Type) where
  seq : Nat
  items : List α
  cookies : List Int
deriving DecidableEq, Repr

instance {ε δ : Type} [DecidableEq ε] [DecidableEq δ] : DecidableEq (Except ε δ) := fun x y =>
  match x, y with
  | .ok a, .ok b =>
    if h : a = b then .isTrue (by rw [h]) else .isFalse (by simp [h])
  | .error a, .error b =>
    if h : a = b then .isTrue (by rw [h]) else .isFalse (by simp [h])
  | .ok _, .error _ => .isFalse (by simp)
  | .error _, .ok _ => .isFalse (by simp)

/-- Concatenation of the cookie lists of a list of batches, in list order. -/
def cookiesOf {α : Type} (bs : List (Batch α)) : List Int :=
  (bs.map Batch.cookies).flatten

/-- First-match lookup in an association list, the shallow embedding of the Go
map read `b, exists := buffer[nextSeq]` (line 188). -/
def lookupSeq {β : Type} : List (Nat × β) → Nat → Option β
  | [], _ => none
  | (k', v) :: rest, k => if k' = k then some v else lookupSeq rest k

/-- Insert-or-overwrite in an association list, the shallow embedding of the
Go map write `buffer[batch.seq] = batch` (line 184). -/
def insertSeq {β : Type} : List (Nat × β) → Nat → β → List (Nat × β)
  | [], k, v => [(k, v)]
  | (k', v') :: rest, k, v =>
    if k' = k then (k, v) :: rest else (k', v') :: insertSeq rest k v

/-- Removal of the first entry with the given key, the shallow embedding of
the Go map deletion `delete(buffer, nextSeq)` (line 197). -/
def eraseSeq {β : Type} : List (Nat × β) → Nat → List (Nat × β)
  | [], _ => []
  | (k', v') :: rest, k => if k' = k then rest else (k', v') :: eraseSeq rest k

/-- The accumulation loop of `runNext` (lines 87-130).  Arguments mirror the
Go locals: the remaining `Producer.Next` results, `buf`, `cookies`, the value
of `seqCounter`, and the batches already written to `batchCh` (the
accumulator `acc`).  An exhausted result list before `eof` stands for a
truncated trace and returns the batches emitted so far. -/
def runNextGo {α : Type} (maxItems : Nat) :
    List (NextRes α) → List α → List Int → Nat → List (Batch α) →
    Except PipeErr (List (Batch α))
  | [], _, _, _, acc => .ok acc
  | NextRes.eof :: _, buf, cookies, seqCtr, acc =>
    if 0 < buf.length then .ok (acc ++ [⟨seqCtr, buf, cookies⟩]) else .ok acc
  | NextRes.fail :: _, _, _, _, _ => .error .nextFailed
  | NextRes.data items cookie :: rest, buf, cookies, seqCtr, acc =>
    if maxItems < buf.length + items.length then
      runNextGo maxItems rest items [cookie] (seqCtr + 1)
        (acc ++ [⟨seqCtr, buf, cookies⟩])
    else
      runNextGo maxItems rest (buf ++ items) (cookies ++ [cookie]) seqCtr acc

/-- The accumulator stage `runNext` (lines 78-133): starts with an empty
buffer, no cookies, and `seqCounter = 0`; returns the list of batches emitted
to `batchCh` in emission order, or `ErrNextFailed`. -/
def runNext {α : Type} (maxItems : Nat) (pulls : List (NextRes α)) :
    Except PipeErr (List (Batch α)) :=
  runNextGo maxItems pulls [] [] 0 []

/-- The observable state of the commit sequencer: the Go locals `nextSeq` and
`buffer` (lines 165-167), plus the instrumentation field `acks` recording
every `p.Commit(cookie)` invocation (line 193) in call order. -/
structure SeqState (α : Type) where
  nextSeq : Nat
  buffer : List (Nat × Batch α)
  acks : List Int
deriving DecidableEq, Repr

/-- The cookie loop `for _, cookie := range b.cookies` (lines 192-196):
invokes `Commit` on each cookie in list order, extending the invocation
trace; stops at the first failing cookie, returning the trace up to and
including the failing invocation. -/
def commitAll (ok : Int → Bool) : List Int → List Int → Except (List Int) (List Int)
  | [], acks => .ok acks
  | c :: cs, acks =>
    if ok c then commitAll ok cs (acks ++ [c]) else .error (acks ++ [c])

/-- The drain loop of `runCommit` (lines 187-199): while a batch keyed by
`nextSeq` is buffered, commit its cookies in order, delete it, and increment
`nextSeq`; a commit failure aborts with `ErrCommitFailed` leaving `nextSeq`
and the buffer unchanged.  The loop removes one buffer entry per iteration,
so `fuel` bounds the iteration count; `drain` supplies `fuel =
buffer.length`, which is always sufficient (when the fuel is exhausted the
buffer is necessarily empty and the loop would exit anyway). -/
def drainGo {α : Type} (ok : Int → Bool) :
    Nat → SeqState α → Except (PipeErr × SeqState α) (SeqState α)
  | 0, st => .ok st
  | fuel + 1, st =>
    match lookupSeq st.buffer st.nextSeq with
    | none => .ok st
    | some b =>
      match commitAll ok b.cookies st.acks with
      | .error acks1 => .error (.commitFailed, ⟨st.nextSeq, st.buffer, acks1⟩)
      | .ok acks1 =>
        drainGo ok fuel ⟨st.nextSeq + 1, eraseSeq st.buffer st.nextSeq, acks1⟩

/-- The drain loop entered with enough fuel for its own buffer. -/
def drain {α : Type} (ok : Int → Bool) (st : SeqState α) :
    Except (PipeErr × SeqState α) (SeqState α) :=
  drainGo ok st.buffer.length st

/-- One receive-insert-drain step of `runCommit` (lines 170-199): store the
received batch in the reorder buffer under its sequence number, then drain. -/
def commitStep {α : Type} (ok : Int → Bool) (st : SeqState α) (b : Batch α) :
    Except (PipeErr × SeqState α) (SeqState α) :=
  drain ok ⟨st.nextSeq, insertSeq st.buffer b.seq b, st.acks⟩

/-- The receive loop of `runCommit` (lines 169-200) over the list of batches
delivered on `procCh` before it closes: process each arrival with
`commitStep`; at channel close (line 175) return `ErrCommitSeqViolated` if
the buffer is non-empty and nil otherwise.  The final state is paired with
the outcome so that the claims can speak about `nextSeq`, the buffer, and
the `Commit` invocation trace. -/
def runCommitGo {α : Type} (ok : Int → Bool) :
    List (Batch α) → SeqState α → Except (PipeErr × SeqState α) (SeqState α)
  | [], st =>
    if 0 < st.buffer.length then .error (.commitSeqViolated, st) else .ok st
  | b :: rest, st =>
    match commitStep ok st b with
    | .error e => .error e
    | .ok st1 => runCommitGo ok rest st1

/-- The commit sequencer stage `runCommit` (lines 163-201): starts with
`nextSeq = 0`, an empty reorder buffer, and an empty invocation trace. -/
def runCommit {α : Type} (ok : Int → Bool) (arr : List (Batch α)) :
    Except (PipeErr × SeqState α) (SeqState α) :=
  runCommitGo ok arr ⟨0, [], []⟩

example : runNext 10 ([.data [1, 2, 3] 5, .eof] : List (NextRes Int)) =
    .ok [⟨0, [1, 2, 3], [5]⟩] := by decide

example : runNext 2 ([.data [1, 2] 5, .data [3] 6, .eof] : List (NextRes Int)) =
    .ok [⟨0, [1, 2], [5]⟩, ⟨1, [3], [6]⟩] := by decide

example : runCommit (fun _ => true)
    ([⟨1, [9], [6]⟩, ⟨0, [8], [5]⟩] : List (Batch Int)) =
    .ok ⟨2, [], [5, 6]⟩ := by decide

example : runCommit (fun c => decide (c ≠ 5))
    ([⟨0, [8], [3, 5, 7]⟩] : List (Batch Int)) =
    .error (.commitFailed, ⟨0, [(0, ⟨0, [8], [3, 5, 7]⟩)], [3, 5]⟩) := by decide

/-! ### Association-list lemmas for the reorder buffer -/

theorem lookupSeq_insertSeq {β : Type} (m : List (Nat × β)) (k j : Nat) (v : β) :
    lookupSeq (insertSeq m k v) j = if j = k then some v else lookupSeq m j := by
  induction m with
  | nil =>
    by_cases h : j = k
    · subst h; simp [insertSeq, lookupSeq]
    · have h' : ¬ k = j := fun hc => h hc.symm
      simp [insertSeq, lookupSeq, h, h']
  | cons hd tl ih =>
    obtain ⟨k', v'⟩ := hd
    by_cases hk : k' = k
    · subst hk
      by_cases h : j = k'
      · subst h; simp [insertSeq, lookupSeq]
      · have h' : ¬ k' = j := fun hc => h hc.symm
        simp [insertSeq, lookupSeq, h, h']
    · by_cases hj : k' = j
      · subst hj
        have h' : ¬ k' = k := hk
        simp [insertSeq, lookupSeq, h', fun hc : k' = k => hk hc]
      · simp [insertSeq, lookupSeq, hk, hj, ih]

theorem lookupSeq_eq_none_iff {β : Type} (m : List (Nat × β)) (k : Nat) :
    lookupSeq m k = none ↔ k ∉ m.map Prod.fst := by
  induction m with
  | nil => simp [lookupSeq]
  | cons hd tl ih =>
    obtain ⟨k', v'⟩ := hd
    by_cases h : k' = k
    · subst h
      simp [lookupSeq]
    · have h' : ¬ k = k' := fun hc => h hc.symm
      simp [lookupSeq, h, h', ih]

theorem insertSeq_of_lookup_none {β : Type} (m : List (Nat × β)) (k : Nat) (v : β)
    (h : lookupSeq m k = none) : insertSeq m k v = m ++ [(k, v)] := by
  induction m with
  | nil => simp [insertSeq]
  | cons hd tl ih =>
    obtain ⟨k', v'⟩ := hd
    by_cases hk : k' = k
    · subst hk
      simp [lookupSeq] at h
    · simp only [lookupSeq, if_neg hk] at h
      simp [insertSeq, hk, ih h]

theorem eraseSeq_sublist {β : Type} (m : List (Nat × β)) (k : Nat) :
    (eraseSeq m k).Sublist m := by
  induction m with
  | nil => simp [eraseSeq]
  | cons hd tl ih =>
    obtain ⟨k', v'⟩ := hd
    by_cases hk : k' = k
    · simp only [eraseSeq, if_pos hk]
      exact List.sublist_cons_self _ _
    · simp only [eraseSeq, if_neg hk]
      exact ih.cons₂ (k', v')

theorem lookupSeq_eraseSeq_ne {β : Type} (m : List (Nat × β)) (k j : Nat)
    (h : j ≠ k) : lookupSeq (eraseSeq m k) j = lookupSeq m j := by
  induction m with
  | nil => simp [eraseSeq]
  | cons hd tl ih =>
    obtain ⟨k', v'⟩ := hd
    by_cases hk : k' = k
    · subst hk
      have h2 : ¬ k' = j := fun hc => h hc.symm
      simp [eraseSeq, lookupSeq, h2]
    · by_cases hj : k' = j
      · subst hj
        simp [eraseSeq, lookupSeq, hk]
      · simp [eraseSeq, lookupSeq, hk, hj, ih]

theorem lookupSeq_eraseSeq_self {β : Type} (m : List (Nat × β)) (k : Nat)
    (hnd : (m.map Prod.fst).Nodup) : lookupSeq (eraseSeq m k) k = none := by
  induction m with
  | nil => simp [eraseSeq, lookupSeq]
  | cons hd tl ih =>
    obtain ⟨k', v'⟩ := hd
    simp only [List.map_cons, List.nodup_cons] at hnd
    by_cases hk : k' = k
    · subst hk
      simp only [eraseSeq, if_pos rfl]
      exact (lookupSeq_eq_none_iff tl k').mpr hnd.1
    · simp [eraseSeq, lookupSeq, hk, ih hnd.2]

theorem eraseSeq_length {β : Type} (m : List (Nat × β)) (k : Nat) (v : β)
    (h : lookupSeq m k = some v) : (eraseSeq m k).length + 1 = m.length := by
  induction m with
  | nil => simp [lookupSeq] at h
  | cons hd tl ih =>
    obtain ⟨k', v'⟩ := hd
    by_cases hk : k' = k
    · simp [eraseSeq, hk]
    · simp only [lookupSeq, if_neg hk] at h
      simp [eraseSeq, hk, ih h]

theorem length_pos_of_lookupSeq {β : Type} (m : List (Nat × β)) (k : Nat) (v : β)
    (h : lookupSeq m k = some v) : 0 < m.length := by
  cases m with
  | nil => simp [lookupSeq] at h
  | cons hd tl => simp

/-! ### Lemmas about the cookie-commit loop -/

theorem commitAll_ok_eq (ok : Int → Bool) (cs : List Int) :
    ∀ acks acks1, commitAll ok cs acks = .ok acks1 →
      acks1 = acks ++ cs ∧ ∀ c ∈ cs, ok c = true := by
  induction cs with
  | nil => simp [commitAll]
  | cons c cs ih =>
    intro acks acks1 h
    by_cases hc : ok c
    · simp only [commitAll, if_pos hc] at h
      obtain ⟨h1, h2⟩ := ih _ _ h
      refine ⟨by simp [h1], ?_⟩
      intro x hx
      rcases List.mem_cons.mp hx with rfl | hx
      · exact hc
      · exact h2 x hx
    · simp [commitAll, hc] at h

theorem commitAll_of_all_ok (ok : Int → Bool) (cs : List Int) :
    ∀ acks, (∀ c ∈ cs, ok c = true) → commitAll ok cs acks = .ok (acks ++ cs) := by
  induction cs with
  | nil => simp [commitAll]
  | cons c cs ih =>
    intro acks hall
    have hc : ok c = true := hall c (List.mem_cons_self _ _)
    have := ih (acks ++ [c]) (fun x hx => hall x (List.mem_cons_of_mem _ hx))
    simp only [commitAll, if_pos hc, this]
    simp

theorem commitAll_error_eq (ok : Int → Bool) (cs : List Int) :
    ∀ acks acks1, commitAll ok cs acks = .error acks1 →
      ∃ pre c post, cs = pre ++ c :: post ∧ (∀ x ∈ pre, ok x = true) ∧
        ok c = false ∧ acks1 = acks ++ pre ++ [c] := by
  induction cs with
  | nil => simp [commitAll]
  | cons c cs ih =>
    intro acks acks1 h
    by_cases hc : ok c
    · simp only [commitAll, if_pos hc] at h
      obtain ⟨pre, c', post, h1, h2, h3, h4⟩ := ih _ _ h
      refine ⟨c :: pre, c', post, by simp [h1], ?_, h3, by simp [h4]⟩
      intro x hx
      rcases List.mem_cons.mp hx with rfl | hx
      · exact hc
      · exact h2 x hx
    · simp only [commitAll, if_neg hc] at h
      exact ⟨[], c, cs, by simp, by simp, by simpa using hc, by simpa using h.symm⟩

/-! ### Lemmas about the drain loop -/

theorem drainGo_ok_lookup_none {α : Type} (ok : Int → Bool) :
    ∀ fuel (st st' : SeqState α), st.buffer.length ≤ fuel →
      drainGo ok fuel st = .ok st' →
      lookupSeq st'.buffer st'.nextSeq = none := by
  intro fuel
  induction fuel with
  | zero =>
    intro st st' hle h
    have hb : st.buffer = [] := List.length_eq_zero.mp (Nat.le_zero.mp hle)
    simp only [drainGo] at h
    cases h
    simp [hb, lookupSeq]
  | succ fuel ih =>
    intro st st' hle h
    simp only [drainGo] at h
    split at h
    next hl =>
      cases h
      exact hl
    next b hl =>
      split at h
      next a1 hca => simp at h
      next a1 hca =>
        refine ih _ st' ?_ h
        have hlen := eraseSeq_length st.buffer st.nextSeq b hl
        simp only
        omega

theorem drainGo_nextSeq_le {α : Type} (ok : Int → Bool) :
    ∀ fuel (st st' : SeqState α), drainGo ok fuel st = .ok st' →
      st.nextSeq ≤ st'.nextSeq := by
  intro fuel
  induction fuel with
  | zero =>
    intro st st' h
    simp only [drainGo] at h
    cases h
    exact Nat.le_refl _
  | succ fuel ih =>
    intro st st' h
    simp only [drainGo] at h
    split at h
    next hl =>
      cases h
      exact Nat.le_refl _
    next b hl =>
      split at h
      next a1 hca => simp at h
      next a1 hca =>
        have := ih _ st' h
        simp only at this
        omega

theorem drainGo_stale_persists {α : Type} (ok : Int → Bool) :
    ∀ fuel (st st' : SeqState α) (k : Nat), k < st.nextSeq →
      (lookupSeq st.buffer k).isSome →
      drainGo ok fuel st = .ok st' →
      k < st'.nextSeq ∧ (lookupSeq st'.buffer k).isSome := by
  intro fuel
  induction fuel with
  | zero =>
    intro st st' k hk hs h
    simp only [drainGo] at h
    cases h
    exact ⟨hk, hs⟩
  | succ fuel ih =>
    intro st st' k hk hs h
    simp only [drainGo] at h
    split at h
    next hl =>
      cases h
      exact ⟨hk, hs⟩
    next b hl =>
      split at h
      next a1 hca => simp at h
      next a1 hca =>
        refine ih _ st' k ?_ ?_ h
        · simp only
          omega
        · simp only
          rw [lookupSeq_eraseSeq_ne st.buffer st.nextSeq k (by omega)]
          exact hs

theorem drainGo_error_shape {α : Type} (ok : Int → Bool) :
    ∀ fuel (st : SeqState α) (e : PipeErr) (st' : SeqState α),
      drainGo ok fuel st = .error (e, st') →
      e = .commitFailed ∧
        ∃ b pre c post l, lookupSeq st'.buffer st'.nextSeq = some b ∧
          b.cookies = pre ++ c :: post ∧ (∀ x ∈ pre, ok x = true) ∧
          ok c = false ∧ st'.acks = l ++ pre ++ [c] := by
  intro fuel
  induction fuel with
  | zero =>
    intro st e st' h
    simp [drainGo] at h
  | succ fuel ih =>
    intro st e st' h
    simp only [drainGo] at h
    split at h
    next hl => simp at h
    next b hl =>
      split at h
      next a1 hca =>
        cases h
        obtain ⟨pre, c, post, h1, h2, h3, h4⟩ := commitAll_error_eq ok b.cookies _ _ hca
        exact ⟨rfl, b, pre, c, post, st.acks,
          hl, h1, h2, h3, by simp [h4, List.append_assoc]⟩
      next a1 hca =>
        exact ih _ _ _ h

theorem drainGo_ok_of_all {α : Type} (ok : Int → Bool) (hall : ∀ c, ok c = true) :
    ∀ fuel (st : SeqState α), ∃ st', drainGo ok fuel st = .ok st' := by
  intro fuel
  induction fuel with
  | zero =>
    intro st
    exact ⟨st, rfl⟩
  | succ fuel ih =>
    intro st
    cases hl : lookupSeq st.buffer st.nextSeq with
    | none => exact ⟨st, by simp only [drainGo, hl]⟩
    | some b =>
      have hca := commitAll_of_all_ok ok b.cookies st.acks (fun c _ => hall c)
      obtain ⟨st', hst'⟩ :=
        ih ⟨st.nextSeq + 1, eraseSeq st.buffer st.nextSeq, st.acks ++ b.cookies⟩
      refine ⟨st', ?_⟩
      simp only [drainGo, hl, hca]
      exact hst'

/-! ### The sequencer invariant for error-free runs

`bs` is the canonical batch list (batch `k` has sequence number `k`, the
order in which `runNext` created them); `rest` is the list of arrivals not
yet received.  `CInv` is the state invariant of `runCommit`'s receive loop
relative to `bs` and `rest`. -/

theorem seq_of_getElem? {α : Type} {bs : List (Batch α)}
    (hseq : bs.map Batch.seq = List.range bs.length) {k : Nat} {b : Batch α}
    (h : bs[k]? = some b) : b.seq = k := by
  have hk : k < bs.length := (List.getElem?_eq_some_iff.mp h).1
  have h1 : (bs.map Batch.seq)[k]? = some b.seq := by
    rw [List.getElem?_map, h]
    rfl
  rw [hseq, List.getElem?_range hk] at h1
  exact (Option.some.inj h1).symm

theorem getElem?_seq_of_mem {α : Type} {bs : List (Batch α)}
    (hseq : bs.map Batch.seq = List.range bs.length) {b : Batch α}
    (hb : b ∈ bs) : bs[b.seq]? = some b := by
  obtain ⟨n, hn, rfl⟩ := List.mem_iff_getElem.mp hb
  have hget : bs[n]? = some bs[n] := List.getElem?_eq_getElem hn
  rw [seq_of_getElem? hseq hget]
  exact hget

theorem nodup_of_seq_range {α : Type} {bs : List (Batch α)}
    (hseq : bs.map Batch.seq = List.range bs.length) : bs.Nodup :=
  List.Nodup.of_map Batch.seq (hseq ▸ List.nodup_range bs.length)

theorem cookiesOf_take_succ {α : Type} {bs : List (Batch α)} {n : Nat}
    {b : Batch α} (h : bs[n]? = some b) :
    cookiesOf (bs.take (n + 1)) = cookiesOf (bs.take n) ++ b.cookies := by
  unfold cookiesOf
  rw [List.take_succ, h]
  simp

structure CInv {α : Type} (bs rest : List (Batch α)) (st : SeqState α) : Prop where
  acks_eq : st.acks = cookiesOf (bs.take st.nextSeq)
  buf_le : ∀ k b, lookupSeq st.buffer k = some b → st.nextSeq ≤ k
  buf_get : ∀ k b, lookupSeq st.buffer k = some b → bs[k]? = some b
  buf_rest : ∀ k b, lookupSeq st.buffer k = some b → b ∉ rest
  count_eq : st.nextSeq + st.buffer.length + rest.length = bs.length
  rest_get : ∀ b ∈ rest, bs[b.seq]? = some b
  rest_le : ∀ b ∈ rest, st.nextSeq ≤ b.seq
  keys_nodup : (st.buffer.map Prod.fst).Nodup
  rest_nodup : rest.Nodup

theorem drainGo_cinv {α : Type} (ok : Int → Bool) (bs rest : List (Batch α)) :
    ∀ fuel (st st' : SeqState α), st.buffer.length ≤ fuel → CInv bs rest st →
      drainGo ok fuel st = .ok st' → CInv bs rest st' := by
  intro fuel
  induction fuel with
  | zero =>
    intro st st' _ hinv h
    simp only [drainGo] at h
    cases h
    exact hinv
  | succ fuel ih =>
    intro st st' hle hinv h
    simp only [drainGo] at h
    split at h
    next hl =>
      cases h
      exact hinv
    next b hl =>
      split at h
      next a1 hca => simp at h
      next a1 hca =>
        obtain ⟨ha1, -⟩ := commitAll_ok_eq ok b.cookies _ _ hca
        have hbget : bs[st.nextSeq]? = some b := hinv.buf_get _ _ hl
        have hblen := eraseSeq_length st.buffer st.nextSeq b hl
        refine ih _ st' (by simp only; omega) ?_ h
        constructor
        · simp only [ha1, hinv.acks_eq]
          exact (cookiesOf_take_succ hbget).symm
        · intro k b' hk
          simp only at hk ⊢
          have hne : k ≠ st.nextSeq := by
            intro hc
            subst hc
            rw [lookupSeq_eraseSeq_self _ _ hinv.keys_nodup] at hk
            simp at hk
          rw [lookupSeq_eraseSeq_ne _ _ _ hne] at hk
          have := hinv.buf_le _ _ hk
          omega
        · intro k b' hk
          simp only at hk
          have hne : k ≠ st.nextSeq := by
            intro hc
            subst hc
            rw [lookupSeq_eraseSeq_self _ _ hinv.keys_nodup] at hk
            simp at hk
          rw [lookupSeq_eraseSeq_ne _ _ _ hne] at hk
          exact hinv.buf_get _ _ hk
        · intro k b' hk
          simp only at hk
          have hne : k ≠ st.nextSeq := by
            intro hc
            subst hc
            rw [lookupSeq_eraseSeq_self _ _ hinv.keys_nodup] at hk
            simp at hk
          rw [lookupSeq_eraseSeq_ne _ _ _ hne] at hk
          exact hinv.buf_rest _ _ hk
        · simp only
          have := hinv.count_eq
          omega
        · exact hinv.rest_get
        · intro b' hb'
          simp only
          have hle' := hinv.rest_le b' hb'
          rcases Nat.lt_or_ge st.nextSeq b'.seq with hlt | hge
          · omega
          · have heq : b'.seq = st.nextSeq := by omega
            exfalso
            have hbg' : bs[st.nextSeq]? = some b' := heq ▸ hinv.rest_get b' hb'
            have : b' = b := by
              have := hbg'.symm.trans hbget
              exact Option.some.inj this
            subst this
            exact hinv.buf_rest _ _ hl hb'
        · simp only
          exact hinv.keys_nodup.sublist ((eraseSeq_sublist _ _).map Prod.fst)
        · exact hinv.rest_nodup

theorem commitStep_cinv {α : Type} (ok : Int → Bool) (bs : List (Batch α))
    (b : Batch α) (rest : List (Batch α)) (st st' : SeqState α)
    (hinv : CInv bs (b :: rest) st) (h : commitStep ok st b = .ok st') :
    CInv bs rest st' := by
  have hbmem : b ∈ b :: rest := List.mem_cons_self _ _
  have hbget : bs[b.seq]? = some b := hinv.rest_get b hbmem
  have hble : st.nextSeq ≤ b.seq := hinv.rest_le b hbmem
  have hlook : lookupSeq st.buffer b.seq = none := by
    cases hv : lookupSeq st.buffer b.seq with
    | none => rfl
    | some v =>
      exfalso
      have hvget : bs[b.seq]? = some v := hinv.buf_get _ _ hv
      have hvb : v = b := Option.some.inj (hvget.symm.trans hbget)
      subst hvb
      exact hinv.buf_rest _ _ hv hbmem
  have hins : insertSeq st.buffer b.seq b = st.buffer ++ [(b.seq, b)] :=
    insertSeq_of_lookup_none _ _ _ hlook
  refine drainGo_cinv ok bs rest _ _ st' (Nat.le_refl _) ?_ h
  constructor
  · exact hinv.acks_eq
  · intro k b' hk
    simp only at hk ⊢
    rw [lookupSeq_insertSeq] at hk
    by_cases hkb : k = b.seq
    · subst hkb
      omega
    · rw [if_neg hkb] at hk
      exact hinv.buf_le _ _ hk
  · intro k b' hk
    simp only at hk
    rw [lookupSeq_insertSeq] at hk
    by_cases hkb : k = b.seq
    · subst hkb
      rw [if_pos rfl] at hk
      cases hk
      exact hbget
    · rw [if_neg hkb] at hk
      exact hinv.buf_get _ _ hk
  · intro k b' hk
    simp only at hk
    rw [lookupSeq_insertSeq] at hk
    by_cases hkb : k = b.seq
    · subst hkb
      rw [if_pos rfl] at hk
      cases hk
      exact (List.nodup_cons.mp hinv.rest_nodup).1
    · rw [if_neg hkb] at hk
      intro hc
      exact hinv.buf_rest _ _ hk (List.mem_cons_of_mem _ hc)
  · simp only [hins, List.length_append, List.length_cons, List.length_nil]
    have := hinv.count_eq
    simp only [List.length_cons] at this
    omega
  · intro b' hb'
    exact hinv.rest_get b' (List.mem_cons_of_mem _ hb')
  · intro b' hb'
    exact hinv.rest_le b' (List.mem_cons_of_mem _ hb')
  · simp only [hins, List.map_append, List.nodup_append]
    refine ⟨hinv.keys_nodup, by simp, ?_⟩
    intro x hx
    simp only [List.map_cons, List.map_nil, List.mem_singleton]
    intro hc
    subst hc
    exact absurd hx ((lookupSeq_eq_none_iff _ _).mp hlook)
  · exact (List.nodup_cons.mp hinv.rest_nodup).2

theorem runCommitGo_cinv {α : Type} (ok : Int → Bool) (bs : List (Batch α)) :
    ∀ rest (st st' : SeqState α), CInv bs rest st →
      runCommitGo ok rest st = .ok st' →
      st'.acks = cookiesOf bs ∧ st'.nextSeq = bs.length ∧ st'.buffer = [] := by
  intro rest
  induction rest with
  | nil =>
    intro st st' hinv h
    simp only [runCommitGo] at h
    split at h
    next => simp at h
    next hlen =>
      cases h
      have hbuf : st.buffer = [] := by
        cases hb : st.buffer with
        | nil => rfl
        | cons hd tl => exact absurd (by simp [hb]) hlen
      have hcount := hinv.count_eq
      rw [hbuf] at hcount
      simp only [List.length_nil, List.length_nil] at hcount
      have hnext : st.nextSeq = bs.length := by omega
      refine ⟨?_, hnext, hbuf⟩
      rw [hinv.acks_eq, hnext, List.take_length]
  | cons b rest ih =>
    intro st st' hinv h
    simp only [runCommitGo] at h
    split at h
    next e he => simp at h
    next st1 hstep =>
      exact ih st1 st' (commitStep_cinv ok bs b rest st st1 hinv hstep) h

/-- If `bs` is a canonical batch list (batch `k` carries sequence number `k`)
and the sequencer receives the batches of `bs` exactly once each, in an
arbitrary order `arr`, and returns nil, then its `Commit` invocation trace is
exactly the cookies of `bs` in batch order, every sequence number was
committed, and the reorder buffer ended empty. -/
theorem runCommit_perm_ok {α : Type} (ok : Int → Bool)
    (bs arr : List (Batch α)) (st : SeqState α)
    (hseq : bs.map Batch.seq = List.range bs.length)
    (hperm : arr.Perm bs) (hrun : runCommit ok arr = .ok st) :
    st.acks = cookiesOf bs ∧ st.nextSeq = bs.length ∧ st.buffer = [] := by
  refine runCommitGo_cinv ok bs arr ⟨0, [], []⟩ st ?_ hrun
  constructor
  · simp [cookiesOf]
  · intro k b h
    simp [lookupSeq] at h
  · intro k b h
    simp [lookupSeq] at h
  · intro k b h
    simp [lookupSeq] at h
  · simpa using hperm.length_eq
  · intro b hb
    exact getElem?_seq_of_mem hseq (hperm.mem_iff.mp hb)
  · intro b _
    exact Nat.zero_le _
  · simp
  · exact hperm.nodup_iff.mpr (nodup_of_seq_range hseq)

/-! ### Structure of the accumulator output -/

theorem cookiesOf_append {α : Type} (bs1 bs2 : List (Batch α)) :
    cookiesOf (bs1 ++ bs2) = cookiesOf bs1 ++ cookiesOf bs2 := by
  simp [cookiesOf]

theorem runNextGo_seq {α : Type} (maxItems : Nat) :
    ∀ (pulls : List (NextRes α)) (buf : List α) (cookies : List Int)
      (acc bs : List (Batch α)),
      acc.map Batch.seq = List.range acc.length →
      runNextGo maxItems pulls buf cookies acc.length acc = .ok bs →
      bs.map Batch.seq = List.range bs.length := by
  intro pulls
  induction pulls with
  | nil =>
    intro buf cookies acc bs hacc h
    simp only [runNextGo] at h
    cases h
    exact hacc
  | cons p rest ih =>
    intro buf cookies acc bs hacc h
    cases p with
    | eof =>
      simp only [runNextGo] at h
      split at h
      next hlen =>
        cases h
        simp only [List.map_append, List.length_append, List.map_cons,
          List.map_nil, List.length_cons, List.length_nil, hacc]
        rw [List.range_succ]
      next hlen =>
        cases h
        exact hacc
    | fail => simp [runNextGo] at h
    | data items cookie =>
      simp only [runNextGo] at h
      split at h
      next hover =>
        have hacc1 : (acc ++ [(⟨acc.length, buf, cookies⟩ : Batch α)]).map Batch.seq =
            List.range (acc ++ [(⟨acc.length, buf, cookies⟩ : Batch α)]).length := by
          simp only [List.map_append, List.length_append, List.map_cons,
            List.map_nil, List.length_cons, List.length_nil, hacc]
          rw [List.range_succ]
        have hlen1 : (acc ++ [(⟨acc.length, buf, cookies⟩ : Batch α)]).length =
            acc.length + 1 := by simp
        rw [← hlen1] at h
        exact ih items [cookie] _ bs hacc1 h
      next hover =>
        exact ih (buf ++ items) (cookies ++ [cookie]) acc bs hacc h

theorem runNextGo_cookies {α : Type} (maxItems : Nat) :
    ∀ (dps : List (List α × Int)) (buf : List α) (cookies : List Int)
      (seqCtr : Nat) (acc bs : List (Batch α)),
      (∀ p ∈ dps, p.1 ≠ []) → (buf = [] → cookies = []) →
      runNextGo maxItems
        (dps.map (fun p => NextRes.data p.1 p.2) ++ [NextRes.eof])
        buf cookies seqCtr acc = .ok bs →
      cookiesOf bs = cookiesOf acc ++ cookies ++ dps.map Prod.snd := by
  intro dps
  induction dps with
  | nil =>
    intro buf cookies seqCtr acc bs _ hbc h
    simp only [List.map_nil, List.nil_append, runNextGo] at h
    split at h
    next hlen =>
      cases h
      simp [cookiesOf_append, cookiesOf]
    next hlen =>
      cases h
      have hbuf : buf = [] := by
        cases buf with
        | nil => rfl
        | cons x xs => exact absurd (by simp) hlen
      rw [hbc hbuf]
      simp
  | cons p dps ih =>
    intro buf cookies seqCtr acc bs hne hbc h
    obtain ⟨its, c⟩ := p
    have hits : its ≠ [] := hne (its, c) (List.mem_cons_self _ _)
    simp only [List.map_cons, List.cons_append, runNextGo] at h
    split at h
    next hover =>
      have := ih its [c] (seqCtr + 1) (acc ++ [⟨seqCtr, buf, cookies⟩]) bs
        (fun q hq => hne q (List.mem_cons_of_mem _ hq))
        (fun hc => absurd hc hits) h
      rw [this, cookiesOf_append]
      simp [cookiesOf]
    next hover =>
      have := ih (buf ++ its) (cookies ++ [c]) seqCtr acc bs
        (fun q hq => hne q (List.mem_cons_of_mem _ hq))
        (fun hc => absurd (List.append_eq_nil.mp hc).2 hits) h
      rw [this]
      simp

/-- Whether one `Producer.Next` result respects the configured maximum batch
size (`true` for end-of-data and errors). -/
def pullFits {α : Type} (maxItems : Nat) : NextRes α → Bool
  | .data items _ => decide (items.length ≤ maxItems)
  | _ => true

theorem runNextGo_nonempty {α : Type} (maxItems : Nat) :
    ∀ (pulls : List (NextRes α)) (buf : List α) (cookies : List Int)
      (seqCtr : Nat) (acc bs : List (Batch α)),
      (∀ p ∈ pulls, pullFits maxItems p = true) →
      (∀ b ∈ acc, b.items ≠ []) →
      runNextGo maxItems pulls buf cookies seqCtr acc = .ok bs →
      ∀ b ∈ bs, b.items ≠ [] := by
  intro pulls
  induction pulls with
  | nil =>
    intro buf cookies seqCtr acc bs _ hacc h
    simp only [runNextGo] at h
    cases h
    exact hacc
  | cons p rest ih =>
    intro buf cookies seqCtr acc bs hfit hacc h
    cases p with
    | eof =>
      simp only [runNextGo] at h
      split at h
      next hlen =>
        cases h
        intro b hb
        rcases List.mem_append.mp hb with hb | hb
        · exact hacc b hb
        · simp only [List.mem_singleton] at hb
          subst hb
          simp only
          intro hc
          rw [hc] at hlen
          simp at hlen
      next hlen =>
        cases h
        exact hacc
    | fail => simp [runNextGo] at h
    | data items cookie =>
      have hf : items.length ≤ maxItems := by
        have := hfit _ (List.mem_cons_self _ _)
        simpa [pullFits] using this
      simp only [runNextGo] at h
      split at h
      next hover =>
        refine ih items [cookie] _ _ bs
          (fun q hq => hfit q (List.mem_cons_of_mem _ hq)) ?_ h
        intro b hb
        rcases List.mem_append.mp hb with hb | hb
        · exact hacc b hb
        · simp only [List.mem_singleton] at hb
          subst hb
          simp only
          intro hc
          rw [hc] at hover
          simp only [List.length_nil, Nat.zero_add] at hover
          omega
      next hover =>
        exact ih (buf ++ items) (cookies ++ [cookie]) _ _ bs
          (fun q hq => hfit q (List.mem_cons_of_mem _ hq)) hacc h

/-! ### Persistence of a stale buffer entry (claim C3) -/

theorem runCommitGo_stale {α : Type} (ok : Int → Bool) :
    ∀ (rest : List (Batch α)) (st : SeqState α) (k : Nat),
      k < st.nextSeq → (lookupSeq st.buffer k).isSome →
      (∀ st', runCommitGo ok rest st ≠ .ok st') ∧
      ((∀ c, ok c = true) →
        ∃ st', runCommitGo ok rest st = .error (.commitSeqViolated, st')) := by
  intro rest
  induction rest with
  | nil =>
    intro st k hk hs
    have hne : st.buffer ≠ [] := by
      intro hc
      rw [hc] at hs
      simp [lookupSeq] at hs
    have hlen : 0 < st.buffer.length := List.length_pos.mpr hne
    constructor
    · intro st' hc
      simp only [runCommitGo, if_pos hlen] at hc
      simp at hc
    · intro _
      exact ⟨st, by simp only [runCommitGo, if_pos hlen]⟩
  | cons b' rest ih =>
    intro st k hk hs
    have hins : (lookupSeq (insertSeq st.buffer b'.seq b') k).isSome := by
      rw [lookupSeq_insertSeq]
      by_cases hkb : k = b'.seq
      · rw [if_pos hkb]
        rfl
      · rw [if_neg hkb]
        exact hs
    cases hstep : commitStep ok st b' with
    | error e =>
      constructor
      · intro st' hc
        simp only [runCommitGo, hstep] at hc
        simp at hc
      · intro hall
        exfalso
        obtain ⟨st2, h2⟩ := drainGo_ok_of_all ok hall
          (insertSeq st.buffer b'.seq b').length
          ⟨st.nextSeq, insertSeq st.buffer b'.seq b', st.acks⟩
        have : commitStep ok st b' = .ok st2 := h2
        rw [hstep] at this
        simp at this
    | ok st1 =>
      have hpers := drainGo_stale_persists ok
        (insertSeq st.buffer b'.seq b').length
        ⟨st.nextSeq, insertSeq st.buffer b'.seq b', st.acks⟩ st1 k hk hins hstep
      have hrec := ih st1 k hpers.1 hpers.2
      constructor
      · intro st' hc
        simp only [runCommitGo, hstep] at hc
        exact hrec.1 st' hc
      · intro hall
        obtain ⟨st', h'⟩ := hrec.2 hall
        exact ⟨st', by simp only [runCommitGo, hstep]; exact h'⟩

/-! ### The claims -/

/-- C1: for every error-free run of the commit sequencer on a clean
accumulator trace (data pulls `dps`, each with a non-empty item list, then
end-of-data), whatever order the processed batches arrive in, the
`Producer.Commit` invocation trace equals the concatenation of the batch
cookie lists in sequence order, which in turn equals the cookies in the exact
order the Source produced them — so no batch is committed before all
smaller-sequence batches and cookies inside a batch go in cookie-list
order. -/
theorem claim_C1_commit_order {α : Type} (ok : Int → Bool) (maxItems : Nat)
    (dps : List (List α × Int)) (bs arr : List (Batch α)) (st : SeqState α)
    (hne : ∀ p ∈ dps, p.1 ≠ [])
    (hbs : runNext maxItems
      (dps.map (fun p => NextRes.data p.1 p.2) ++ [NextRes.eof]) = .ok bs)
    (hperm : arr.Perm bs)
    (hrun : runCommit ok arr = .ok st) :
    st.acks = cookiesOf bs ∧ st.acks = dps.map Prod.snd := by
  have hseq : bs.map Batch.seq = List.range bs.length :=
    runNextGo_seq maxItems _ [] [] [] bs (by simp) hbs
  have hcook : cookiesOf bs = cookiesOf [] ++ [] ++ dps.map Prod.snd :=
    runNextGo_cookies maxItems dps [] [] 0 [] bs hne (fun _ => rfl) hbs
  obtain ⟨hacks, -, -⟩ := runCommit_perm_ok ok bs arr st hseq hperm hrun
  refine ⟨hacks, ?_⟩
  rw [hacks, hcook]
  simp [cookiesOf]

theorem claim_C1_commit_order_witness :
    (∀ p ∈ ([([0], 1), ([1], 2)] : List (List Int × Int)), p.1 ≠ []) ∧
    runNext 1 (([([0], 1), ([1], 2)] : List (List Int × Int)).map
      (fun p => NextRes.data p.1 p.2) ++ [NextRes.eof]) =
      .ok [⟨0, [0], [1]⟩, ⟨1, [1], [2]⟩] ∧
    ([⟨1, [1], [2]⟩, ⟨0, [0], [1]⟩] : List (Batch Int)).Perm
      [⟨0, [0], [1]⟩, ⟨1, [1], [2]⟩] ∧
    runCommit (fun _ => true) ([⟨1, [1], [2]⟩, ⟨0, [0], [1]⟩] : List (Batch Int)) =
      .ok ⟨2, [], [1, 2]⟩ ∧
    (⟨2, [], [1, 2]⟩ : SeqState Int).acks =
      cookiesOf [⟨0, [0], [1]⟩, ⟨1, [1], [2]⟩] ∧
    (⟨2, [], [1, 2]⟩ : SeqState Int).acks =
      ([([0], 1), ([1], 2)] : List (List Int × Int)).map Prod.snd := by
  have h := claim_C1_commit_order (fun _ => true) 1 [([0], 1), ([1], 2)]
    [⟨0, [0], [1]⟩, ⟨1, [1], [2]⟩] [⟨1, [1], [2]⟩, ⟨0, [0], [1]⟩] ⟨2, [], [1, 2]⟩
    (by decide) (by decide) (by decide) (by decide)
  exact ⟨by decide, by decide, by decide, by decide, h.1, h.2⟩

/-- C2, counterexample: the overflow check of `runNext` (line 111) runs
before the new items are appended, so a first pull larger than `maxItems`
flushes the still-empty buffer: with `maxItems = 1` and a single pull of two
items the accumulator emits the empty batch `⟨0, [], []⟩`.  The claim that
every emitted batch has at least one item is therefore false as stated. -/
theorem claim_C2_counterexample :
    runNext 1 ([NextRes.data [4, 5] 9, NextRes.eof] : List (NextRes Int)) =
      .ok [⟨0, [], []⟩, ⟨1, [4, 5], [9]⟩] ∧
    ¬ (∀ b ∈ ([⟨0, [], []⟩, ⟨1, [4, 5], [9]⟩] : List (Batch Int)),
        1 ≤ b.items.length) := by
  exact ⟨by decide, by decide⟩

/-- C2, amended: if every `Producer.Next` result respects the configured
maximum (`items.length ≤ maxItems`), then every batch emitted by `runNext`
has at least one item: the overflow flush fires only with a non-empty buffer
and the end-of-data flush is guarded by `len(buf) > 0`. -/
theorem claim_C2_amended {α : Type} (maxItems : Nat)
    (pulls : List (NextRes α)) (bs : List (Batch α))
    (hfit : ∀ p ∈ pulls, pullFits maxItems p = true)
    (h : runNext maxItems pulls = .ok bs) :
    ∀ b ∈ bs, 1 ≤ b.items.length := by
  intro b hb
  have := runNextGo_nonempty maxItems pulls [] [] 0 [] bs hfit
    (by intro b hb; simp at hb) h b hb
  exact Nat.succ_le_of_lt (List.length_pos.mpr this)

theorem claim_C2_amended_witness :
    (∀ p ∈ ([NextRes.data [7] 1, NextRes.data [8, 9] 2, NextRes.eof] :
      List (NextRes Int)), pullFits 2 p = true) ∧
    runNext 2 ([NextRes.data [7] 1, NextRes.data [8, 9] 2, NextRes.eof] :
      List (NextRes Int)) = .ok [⟨0, [7], [1]⟩, ⟨1, [8, 9], [2]⟩] ∧
    (∀ b ∈ ([⟨0, [7], [1]⟩, ⟨1, [8, 9], [2]⟩] : List (Batch Int)),
      1 ≤ b.items.length) := by
  refine ⟨by decide, by decide, ?_⟩
  exact claim_C2_amended 2
    [NextRes.data [7] 1, NextRes.data [8, 9] 2, NextRes.eof]
    [⟨0, [7], [1]⟩, ⟨1, [8, 9], [2]⟩] (by decide) (by decide)

/-- C4: when the batch channel closes cleanly (the arrival list is
exhausted), `runCommit` returns nil exactly when the reorder buffer is empty
and otherwise fails with `ErrCommitSeqViolated` (line 178), an error value
distinct from the acknowledgment failure `ErrCommitFailed`. -/
theorem claim_C4_close_behavior {α : Type} (ok : Int → Bool) (st : SeqState α) :
    (st.buffer = [] → runCommitGo ok [] st = .ok st) ∧
    (st.buffer ≠ [] → runCommitGo ok [] st = .error (.commitSeqViolated, st)) ∧
    PipeErr.commitSeqViolated ≠ PipeErr.commitFailed := by
  refine ⟨?_, ?_, by decide⟩
  · intro h
    simp [runCommitGo, h]
  · intro h
    have hlen : 0 < st.buffer.length := List.length_pos.mpr h
    simp [runCommitGo, hlen]

theorem claim_C4_close_behavior_witness :
    runCommitGo (fun _ => true) [] (⟨2, [], [5]⟩ : SeqState Int) =
      .ok ⟨2, [], [5]⟩ ∧
    runCommitGo (fun _ => true) []
      (⟨2, [(3, ⟨3, [1], [9]⟩)], [5]⟩ : SeqState Int) =
      .error (.commitSeqViolated, ⟨2, [(3, ⟨3, [1], [9]⟩)], [5]⟩) :=
  ⟨(claim_C4_close_behavior (fun _ => true) _).1 rfl,
   (claim_C4_close_behavior (fun _ => true) _).2.1 (by decide)⟩

/-- C5: on a clean pipeline run — the accumulator consumes data pulls `dps`
(each with a non-empty item list, as the Source contract in §6 requires) and
ends at end-of-data, the processor pool forwards every batch exactly once in
some arbitrary order `arr`, and the sequencer returns nil — every produced
cookie is passed to `Producer.Commit` exactly once: the multiset of
acknowledged cookies equals the multiset of produced cookies. -/
theorem claim_C5_cookie_conservation {α : Type} (ok : Int → Bool)
    (maxItems : Nat) (dps : List (List α × Int)) (bs arr : List (Batch α))
    (st : SeqState α)
    (hne : ∀ p ∈ dps, p.1 ≠ [])
    (hbs : runNext maxItems
      (dps.map (fun p => NextRes.data p.1 p.2) ++ [NextRes.eof]) = .ok bs)
    (hperm : arr.Perm bs)
    (hrun : runCommit ok arr = .ok st) :
    ∀ c : Int, st.acks.count c = (dps.map Prod.snd).count c := by
  have hseq : bs.map Batch.seq = List.range bs.length :=
    runNextGo_seq maxItems _ [] [] [] bs (by simp) hbs
  have hcook : cookiesOf bs = cookiesOf [] ++ [] ++ dps.map Prod.snd :=
    runNextGo_cookies maxItems dps [] [] 0 [] bs hne (fun _ => rfl) hbs
  obtain ⟨hacks, -, -⟩ := runCommit_perm_ok ok bs arr st hseq hperm hrun
  intro c
  rw [hacks, hcook]
  simp [cookiesOf]

theorem claim_C5_cookie_conservation_witness :
    (∀ p ∈ ([([4, 5], 11), ([6], 12)] : List (List Int × Int)), p.1 ≠ []) ∧
    runNext 3 (([([4, 5], 11), ([6], 12)] : List (List Int × Int)).map
      (fun p => NextRes.data p.1 p.2) ++ [NextRes.eof]) =
      .ok [⟨0, [4, 5, 6], [11, 12]⟩] ∧
    ([⟨0, [4, 5, 6], [11, 12]⟩] : List (Batch Int)).Perm
      [⟨0, [4, 5, 6], [11, 12]⟩] ∧
    runCommit (fun _ => true) ([⟨0, [4, 5, 6], [11, 12]⟩] : List (Batch Int)) =
      .ok ⟨1, [], [11, 12]⟩ ∧
    ∀ c : Int, ((⟨1, [], [11, 12]⟩ : SeqState Int).acks).count c =
      (([([4, 5], 11), ([6], 12)] : List (List Int × Int)).map Prod.snd).count c := by
  refine ⟨by decide, by decide, by decide, by decide, ?_⟩
  exact claim_C5_cookie_conservation (fun _ => true) 3 [([4, 5], 11), ([6], 12)]
    [⟨0, [4, 5, 6], [11, 12]⟩] [⟨0, [4, 5, 6], [11, 12]⟩] ⟨1, [], [11, 12]⟩
    (by decide) (by decide) (by decide) (by decide)

/-- C7: whenever the sequencer is about to block on a receive — initially,
and after every receive-insert-drain step that completed without error — the
reorder buffer holds no batch keyed by the current `nextSeq`: the drain loop
(lines 187-199) only exits once the lookup at `nextSeq` misses. -/
theorem claim_C7_no_expected_key {α : Type} :
    lookupSeq ((⟨0, [], []⟩ : SeqState α).buffer)
      ((⟨0, [], []⟩ : SeqState α).nextSeq) = none ∧
    ∀ (ok : Int → Bool) (st : SeqState α) (b : Batch α) (st' : SeqState α),
      commitStep ok st b = .ok st' →
      lookupSeq st'.buffer st'.nextSeq = none := by
  constructor
  · rfl
  · intro ok st b st' h
    exact drainGo_ok_lookup_none ok _ _ st' (Nat.le_refl _) h

theorem claim_C7_no_expected_key_witness :
    commitStep (fun _ => true) (⟨0, [], []⟩ : SeqState Int) ⟨0, [1], [4]⟩ =
      .ok ⟨1, [], [4]⟩ ∧
    lookupSeq ((⟨1, [], [4]⟩ : SeqState Int).buffer)
      ((⟨1, [], [4]⟩ : SeqState Int).nextSeq) = none :=
  ⟨by decide, (claim_C7_no_expected_key (α := Int)).2 (fun _ => true)
    ⟨0, [], []⟩ ⟨0, [1], [4]⟩ ⟨1, [], [4]⟩ (by decide)⟩

/-- C8: if a run of the sequencer ends with `ErrCommitFailed`, then it
stopped at the first failing `Producer.Commit` call: the failing batch is
still in the reorder buffer keyed by the (un-advanced) `nextSeq`, its cookie
list splits as `pre ++ c :: post` where every cookie of `pre` committed
successfully, `c` is the failing cookie, and the invocation trace ends
exactly at `c` — the cookies of `post` and of every other buffered batch were
never attempted, so no cookie is committed twice. -/
theorem claim_C8_commit_failure {α : Type} (ok : Int → Bool)
    (arr : List (Batch α)) (st0 st' : SeqState α)
    (h : runCommitGo ok arr st0 = .error (.commitFailed, st')) :
    ∃ b pre c post l,
      lookupSeq st'.buffer st'.nextSeq = some b ∧
      b.cookies = pre ++ c :: post ∧
      (∀ x ∈ pre, ok x = true) ∧ ok c = false ∧
      st'.acks = l ++ pre ++ [c] := by
  induction arr generalizing st0 with
  | nil =>
    simp only [runCommitGo] at h
    split at h
    · simp at h
    · simp at h
  | cons b arr ih =>
    simp only [runCommitGo] at h
    split at h
    next e he =>
      cases h
      have he' : drainGo ok (insertSeq st0.buffer b.seq b).length
          ⟨st0.nextSeq, insertSeq st0.buffer b.seq b, st0.acks⟩ =
          .error (.commitFailed, st') := he
      exact (drainGo_error_shape ok _ _ _ _ he').2
    next st1 hstep =>
      exact ih st1 h

theorem claim_C8_commit_failure_witness :
    runCommitGo (fun c => decide (c ≠ 5)) ([⟨0, [0], [3, 5, 7]⟩] : List (Batch Int))
      ⟨0, [], []⟩ =
      .error (.commitFailed, ⟨0, [(0, ⟨0, [0], [3, 5, 7]⟩)], [3, 5]⟩) ∧
    ∃ b pre c post l,
      lookupSeq ((⟨0, [(0, ⟨0, [0], [3, 5, 7]⟩)], [3, 5]⟩ : SeqState Int).buffer)
        ((⟨0, [(0, ⟨0, [0], [3, 5, 7]⟩)], [3, 5]⟩ : SeqState Int).nextSeq) = some b ∧
      b.cookies = pre ++ c :: post ∧
      (∀ x ∈ pre, (fun c : Int => decide (c ≠ 5)) x = true) ∧
      (fun c : Int => decide (c ≠ 5)) c = false ∧
      (⟨0, [(0, ⟨0, [0], [3, 5, 7]⟩)], [3, 5]⟩ : SeqState Int).acks = l ++ pre ++ [c] :=
  ⟨by decide, claim_C8_commit_failure (fun c => decide (c ≠ 5))
    [⟨0, [0], [3, 5, 7]⟩] ⟨0, [], []⟩
    ⟨0, [(0, ⟨0, [0], [3, 5, 7]⟩)], [3, 5]⟩ (by decide)⟩

/-- C10: the configured maximum does not cap the emitted batch size: with
`maxItems = 2`, a single pull of three items makes `runNext` append all three
to the buffer (after the pre-append overflow check flushed the old buffer)
and later emit them as one batch of three items, strictly larger than
`maxItems`. -/
theorem claim_C10_oversized_batch :
    runNext 2 ([NextRes.data [10, 20, 30] 7, NextRes.eof] : List (NextRes Int)) =
      .ok [⟨0, [], []⟩, ⟨1, [10, 20, 30], [7]⟩] ∧
    ∃ b ∈ ([⟨0, [], []⟩, ⟨1, [10, 20, 30], [7]⟩] : List (Batch Int)),
      2 < b.items.length := by
  exact ⟨by decide, by decide⟩

/-- C3, counterexample: a batch whose sequence number is below `nextSeq` is
not rejected when it is received: the receive-insert-drain step completes
without error (first conjunct: the stale batch just parks in the buffer), the
sequencer goes on committing later batches (cookie 6 is acknowledged after
the stale arrival), and the condition only surfaces at channel close as
`ErrCommitSeqViolated` — so the code defers the condition to shutdown rather
than failing at the moment of observation. -/
theorem claim_C3_counterexample :
    commitStep (fun _ => true) (⟨1, [], [5]⟩ : SeqState Int) ⟨0, [1], [5]⟩ =
      .ok ⟨1, [(0, ⟨0, [1], [5]⟩)], [5]⟩ ∧
    runCommit (fun _ => true)
      ([⟨0, [1], [5]⟩, ⟨0, [1], [5]⟩, ⟨1, [2], [6]⟩] : List (Batch Int)) =
      .error (.commitSeqViolated, ⟨2, [(0, ⟨0, [1], [5]⟩)], [5, 6]⟩) :=
  ⟨by decide, by decide⟩

/-- C3, amended: a batch received with `seq < nextSeq` is buffered silently
and never committed again, but it is not accepted either: from that moment
the run can never return nil, and if every `Producer.Commit` call succeeds
the run ends at shutdown with the fatal `ErrCommitSeqViolated` (the stale key
stays below `nextSeq` forever, so the close-time buffer check fires).
Detection is thus deferred to shutdown instead of the moment of receipt. -/
theorem claim_C3_amended {α : Type} (ok : Int → Bool) (st : SeqState α)
    (b : Batch α) (rest : List (Batch α)) (hstale : b.seq < st.nextSeq) :
    (∀ st', runCommitGo ok (b :: rest) st ≠ .ok st') ∧
    ((∀ c, ok c = true) →
      ∃ st', runCommitGo ok (b :: rest) st = .error (.commitSeqViolated, st')) := by
  have hins : (lookupSeq (insertSeq st.buffer b.seq b) b.seq).isSome := by
    rw [lookupSeq_insertSeq, if_pos rfl]
    rfl
  cases hstep : commitStep ok st b with
  | error e =>
    constructor
    · intro st' hc
      simp only [runCommitGo, hstep] at hc
      simp at hc
    · intro hall
      exfalso
      obtain ⟨st2, h2⟩ := drainGo_ok_of_all ok hall
        (insertSeq st.buffer b.seq b).length
        ⟨st.nextSeq, insertSeq st.buffer b.seq b, st.acks⟩
      have hco : commitStep ok st b = .ok st2 := h2
      rw [hstep] at hco
      simp at hco
  | ok st1 =>
    have hpers := drainGo_stale_persists ok
      (insertSeq st.buffer b.seq b).length
      ⟨st.nextSeq, insertSeq st.buffer b.seq b, st.acks⟩ st1 b.seq hstale hins hstep
    have hrec := runCommitGo_stale ok rest st1 b.seq hpers.1 hpers.2
    constructor
    · intro st' hc
      simp only [runCommitGo, hstep] at hc
      exact hrec.1 st' hc
    · intro hall
      obtain ⟨st', h'⟩ := hrec.2 hall
      refine ⟨st', ?_⟩
      simp only [runCommitGo, hstep]
      exact h'

theorem claim_C3_amended_witness :
    (Batch.seq (⟨0, [1], [5]⟩ : Batch Int) <
      SeqState.nextSeq (⟨1, [], [5]⟩ : SeqState Int)) ∧
    (∀ st', runCommitGo (fun _ => true)
      ([⟨0, [1], [5]⟩, ⟨1, [2], [6]⟩] : List (Batch Int)) ⟨1, [], [5]⟩ ≠ .ok st') ∧
    ((∀ c : Int, (fun _ => true) c = true) →
      ∃ st', runCommitGo (fun _ => true)
        ([⟨0, [1], [5]⟩, ⟨1, [2], [6]⟩] : List (Batch Int)) ⟨1, [], [5]⟩ =
        .error (.commitSeqViolated, st')) := by
  have h := claim_C3_amended (fun _ => true) (⟨1, [], [5]⟩ : SeqState Int)
    ⟨0, [1], [5]⟩ [⟨1, [2], [6]⟩] (by decide)
  exact ⟨by decide, h.1, h.2⟩

/-! ### Partitioning the pull stream into batches (claim C6) -/

/-- The items contributed by a consecutive group of data pulls, in pull
order. -/
def groupItems {α : Type} (g : List (List α × Int)) : List α :=
  (g.map Prod.fst).flatten

/-- The cookies of a consecutive group of data pulls, in pull order. -/
def groupCookies {α : Type} (g : List (List α × Int)) : List Int :=
  g.map Prod.snd

/-- The batches described by a consecutive partition `gs` of the pull stream,
with sequence numbers counted from `k`. -/
def mkBatchesFrom {α : Type} (k : Nat) :
    List (List (List α × Int)) → List (Batch α)
  | [] => []
  | g :: gs => ⟨k, groupItems g, groupCookies g⟩ :: mkBatchesFrom (k + 1) gs

/-- The flush boundary between consecutive groups: the first pull of the next
group is the one whose items would have pushed the previous batch over
`maxItems` (the condition on line 111 of the source). -/
def flushForced {α : Type} (maxItems : Nat)
    (g g' : List (List α × Int)) : Prop :=
  ∃ p ps, g' = p :: ps ∧ maxItems < (groupItems g).length + p.1.length

/-- Inside one group no flush was warranted: every pull after the group's
first fit into the buffer accumulated from the pulls before it. -/
def noEarlyFlush {α : Type} (maxItems : Nat) (g : List (List α × Int)) : Prop :=
  ∀ i (h : i < g.length), 0 < i →
    (groupItems (g.take i)).length + (g.get ⟨i, h⟩).1.length ≤ maxItems

theorem groupItems_append {α : Type} (g g' : List (List α × Int)) :
    groupItems (g ++ g') = groupItems g ++ groupItems g' := by
  simp [groupItems]

theorem groupItems_single {α : Type} (p : List α × Int) :
    groupItems [p] = p.1 := by
  simp [groupItems]

theorem groupCookies_append {α : Type} (g g' : List (List α × Int)) :
    groupCookies (g ++ g') = groupCookies g ++ groupCookies g' := by
  simp [groupCookies]

theorem mkBatchesFrom_append {α : Type} (k : Nat)
    (gs : List (List (List α × Int))) (g : List (List α × Int)) :
    mkBatchesFrom k (gs ++ [g]) =
      mkBatchesFrom k gs ++ [⟨k + gs.length, groupItems g, groupCookies g⟩] := by
  induction gs generalizing k with
  | nil => simp [mkBatchesFrom]
  | cons g0 gs ih =>
    have hlen : k + 1 + gs.length = k + (g0 :: gs).length := by
      rw [List.length_cons]
      omega
    calc mkBatchesFrom k ((g0 :: gs) ++ [g])
        = ⟨k, groupItems g0, groupCookies g0⟩ ::
            mkBatchesFrom (k + 1) (gs ++ [g]) := rfl
      _ = ⟨k, groupItems g0, groupCookies g0⟩ ::
            (mkBatchesFrom (k + 1) gs ++
              [⟨k + 1 + gs.length, groupItems g, groupCookies g⟩]) := by rw [ih]
      _ = mkBatchesFrom k (g0 :: gs) ++
            [⟨k + (g0 :: gs).length, groupItems g, groupCookies g⟩] := by
          rw [hlen]
          rfl

theorem groupItems_eq_nil {α : Type} (g : List (List α × Int))
    (hg : ∀ p ∈ g, p.1 ≠ []) (h : groupItems g = []) : g = [] := by
  cases g with
  | nil => rfl
  | cons p g' =>
    exfalso
    simp only [groupItems, List.map_cons, List.flatten_cons,
      List.append_eq_nil] at h
    exact hg p (List.mem_cons_self _ _) h.1

theorem flushForced_extend {α : Type} (maxItems : Nat)
    (x g : List (List α × Int)) (p : List α × Int)
    (h : flushForced maxItems x g) : flushForced maxItems x (g ++ [p]) := by
  obtain ⟨q, qs, rfl, hcond⟩ := h
  exact ⟨q, qs ++ [p], by simp, hcond⟩

theorem noEarlyFlush_nil {α : Type} (maxItems : Nat) :
    noEarlyFlush maxItems ([] : List (List α × Int)) := by
  intro i h hpos
  simp at h

theorem noEarlyFlush_singleton {α : Type} (maxItems : Nat) (p : List α × Int) :
    noEarlyFlush maxItems [p] := by
  intro i h hpos
  simp only [List.length_cons, List.length_nil] at h
  exact absurd hpos (by omega)

theorem noEarlyFlush_extend {α : Type} (maxItems : Nat)
    (g : List (List α × Int)) (p : List α × Int)
    (hg : noEarlyFlush maxItems g)
    (hfit : (groupItems g).length + p.1.length ≤ maxItems) :
    noEarlyFlush maxItems (g ++ [p]) := by
  intro i h hpos
  rcases Nat.lt_or_ge i g.length with hi | hi
  · have htake : (g ++ [p]).take i = g.take i :=
      List.take_append_of_le_length (Nat.le_of_lt hi)
    have hget : (g ++ [p]).get ⟨i, h⟩ = g.get ⟨i, hi⟩ := by
      simp only [List.get_eq_getElem]
      exact List.getElem_append_left hi
    rw [htake, hget]
    exact hg i hi hpos
  · have hieq : i = g.length := by
      simp only [List.length_append, List.length_cons, List.length_nil] at h
      omega
    subst hieq
    have htake : (g ++ [p]).take g.length = g := List.take_left g [p]
    have hget : (g ++ [p]).get ⟨g.length, h⟩ = p := by
      simp only [List.get_eq_getElem]
      rw [List.getElem_append_right (Nat.le_refl _)]
      simp
    rw [htake, hget]
    exact hfit

theorem runNextGo_partition {α : Type} (maxItems : Nat) :
    ∀ (dps : List (List α × Int)) (g0 : List (List α × Int))
      (gs0 : List (List (List α × Int))) (bs : List (Batch α)),
      (∀ p ∈ dps, p.1 ≠ []) →
      (∀ p ∈ g0, p.1 ≠ []) →
      List.Chain' (flushForced maxItems) (gs0 ++ [g0]) →
      (∀ g ∈ gs0 ++ [g0], noEarlyFlush maxItems g) →
      runNextGo maxItems
        (dps.map (fun p => NextRes.data p.1 p.2) ++ [NextRes.eof])
        (groupItems g0) (groupCookies g0) gs0.length (mkBatchesFrom 0 gs0) =
        .ok bs →
      ∃ gsTail,
        gsTail.flatten = g0 ++ dps ∧
        bs = mkBatchesFrom 0 (gs0 ++ gsTail) ∧
        List.Chain' (flushForced maxItems) (gs0 ++ gsTail) ∧
        (∀ g ∈ gs0 ++ gsTail, noEarlyFlush maxItems g) := by
  intro dps
  induction dps with
  | nil =>
    intro g0 gs0 bs _ hg0 hchain hnoe h
    simp only [List.map_nil, List.nil_append, runNextGo] at h
    split at h
    next hlen =>
      cases h
      refine ⟨[g0], by simp, ?_, hchain, hnoe⟩
      rw [mkBatchesFrom_append, Nat.zero_add]
    next hlen =>
      cases h
      have hnil : groupItems g0 = [] := by
        cases hgi : groupItems g0 with
        | nil => rfl
        | cons x xs => exact absurd (by simp [hgi]) hlen
      have hg0nil : g0 = [] := groupItems_eq_nil g0 hg0 hnil
      subst hg0nil
      refine ⟨[], by simp, by simp, ?_, ?_⟩
      · rw [List.append_nil]
        exact (List.chain'_append.mp hchain).1
      · intro g hg
        exact hnoe g (List.mem_append_left _ (by simpa using hg))
  | cons p dps ih =>
    intro g0 gs0 bs hne hg0 hchain hnoe h
    obtain ⟨its, c⟩ := p
    have hits : its ≠ [] := hne (its, c) (List.mem_cons_self _ _)
    have hne' : ∀ q ∈ dps, q.1 ≠ [] := fun q hq => hne q (List.mem_cons_of_mem _ hq)
    simp only [List.map_cons, List.cons_append, runNextGo] at h
    split at h
    next hover =>
      have e1 : groupItems [(its, c)] = its := groupItems_single _
      have e2 : groupCookies [(its, c)] = [c] := by simp [groupCookies]
      have e3 : (gs0 ++ [g0]).length = gs0.length + 1 := by simp
      have e4 : mkBatchesFrom 0 (gs0 ++ [g0]) =
          mkBatchesFrom 0 gs0 ++ [⟨gs0.length, groupItems g0, groupCookies g0⟩] := by
        rw [mkBatchesFrom_append, Nat.zero_add]
      have h' : runNextGo maxItems
          (dps.map (fun p => NextRes.data p.1 p.2) ++ [NextRes.eof])
          (groupItems [(its, c)]) (groupCookies [(its, c)])
          ((gs0 ++ [g0]).length) (mkBatchesFrom 0 (gs0 ++ [g0])) = .ok bs := by
        rw [e1, e2, e3, e4]
        exact h
      have hchain' : List.Chain' (flushForced maxItems)
          ((gs0 ++ [g0]) ++ [[(its, c)]]) := by
        refine List.chain'_append.mpr ⟨hchain, List.chain'_singleton _, ?_⟩
        intro x hx y hy
        rw [List.getLast?_concat] at hx
        simp only [List.head?_cons, Option.mem_def, Option.some.injEq] at hx hy
        subst hx
        subst hy
        exact ⟨(its, c), [], rfl, hover⟩
      have hnoe' : ∀ g ∈ (gs0 ++ [g0]) ++ [[(its, c)]], noEarlyFlush maxItems g := by
        intro g hg
        rcases List.mem_append.mp hg with hg | hg
        · exact hnoe g hg
        · simp only [List.mem_singleton] at hg
          subst hg
          exact noEarlyFlush_singleton _ _
      obtain ⟨gsTail, ht1, ht2, ht3, ht4⟩ := ih [(its, c)] (gs0 ++ [g0]) bs hne'
        (by intro q hq; simp only [List.mem_singleton] at hq; subst hq; exact hits)
        hchain' hnoe' h'
      refine ⟨g0 :: gsTail, ?_, ?_, ?_, ?_⟩
      · simp only [List.flatten_cons, ht1]
        simp
      · rw [ht2]
        simp
      · have : (gs0 ++ [g0]) ++ gsTail = gs0 ++ (g0 :: gsTail) := by simp
        rw [← this]
        exact ht3
      · intro g hg
        refine ht4 g ?_
        have : (gs0 ++ [g0]) ++ gsTail = gs0 ++ (g0 :: gsTail) := by simp
        rw [this]
        exact hg
    next hover =>
      have hfit : (groupItems g0).length + its.length ≤ maxItems := by omega
      have f1 : groupItems (g0 ++ [(its, c)]) = groupItems g0 ++ its := by
        rw [groupItems_append, groupItems_single]
      have f2 : groupCookies (g0 ++ [(its, c)]) = groupCookies g0 ++ [c] := by
        rw [groupCookies_append]
        simp [groupCookies]
      have h' : runNextGo maxItems
          (dps.map (fun p => NextRes.data p.1 p.2) ++ [NextRes.eof])
          (groupItems (g0 ++ [(its, c)])) (groupCookies (g0 ++ [(its, c)]))
          gs0.length (mkBatchesFrom 0 gs0) = .ok bs := by
        rw [f1, f2]
        exact h
      have hg0' : ∀ q ∈ g0 ++ [(its, c)], q.1 ≠ [] := by
        intro q hq
        rcases List.mem_append.mp hq with hq | hq
        · exact hg0 q hq
        · simp only [List.mem_singleton] at hq
          subst hq
          exact hits
      have hchain' : List.Chain' (flushForced maxItems)
          (gs0 ++ [g0 ++ [(its, c)]]) := by
        have hsplit := List.chain'_append.mp hchain
        refine List.chain'_append.mpr ⟨hsplit.1, List.chain'_singleton _, ?_⟩
        intro x hx y hy
        simp only [List.head?_cons, Option.mem_def, Option.some.injEq] at hy
        subst hy
        have := hsplit.2.2 x hx g0 (by simp)
        exact flushForced_extend _ _ _ _ this
      have hnoe' : ∀ g ∈ gs0 ++ [g0 ++ [(its, c)]], noEarlyFlush maxItems g := by
        intro g hg
        rcases List.mem_append.mp hg with hg | hg
        · exact hnoe g (List.mem_append_left _ hg)
        · simp only [List.mem_singleton] at hg
          subst hg
          refine noEarlyFlush_extend _ _ _ ?_ hfit
          exact hnoe g0 (List.mem_append_right _ (by simp))
      obtain ⟨gsTail, ht1, ht2, ht3, ht4⟩ := ih (g0 ++ [(its, c)]) gs0 bs hne'
        hg0' hchain' hnoe' h'
      refine ⟨gsTail, ?_, ht2, ht3, ht4⟩
      rw [ht1]
      simp

/-- C6: on a clean trace (data pulls `dps`, each non-empty as the Source
contract requires, then end-of-data) the accumulator's output is described by
a consecutive partition `gs` of the pull stream: batch `k` consists of
exactly the items of the pulls in group `k` — so the items of one
`Producer.Next` call are never split across two batches — with the matching
cookies; every flush except the final end-of-data flush happens exactly
because the first pull of the next group would have pushed the batch over
`maxItems` (`flushForced`), and no flush ever happens earlier
(`noEarlyFlush`). -/
theorem claim_C6_flush_boundaries {α : Type} (maxItems : Nat)
    (dps : List (List α × Int)) (bs : List (Batch α))
    (hne : ∀ p ∈ dps, p.1 ≠ [])
    (hbs : runNext maxItems
      (dps.map (fun p => NextRes.data p.1 p.2) ++ [NextRes.eof]) = .ok bs) :
    ∃ gs : List (List (List α × Int)),
      dps = gs.flatten ∧
      bs = mkBatchesFrom 0 gs ∧
      List.Chain' (flushForced maxItems) gs ∧
      (∀ g ∈ gs, noEarlyFlush maxItems g) := by
  have h0 : runNextGo maxItems
      (dps.map (fun p => NextRes.data p.1 p.2) ++ [NextRes.eof])
      (groupItems ([] : List (List α × Int)))
      (groupCookies ([] : List (List α × Int)))
      (List.length ([] : List (List (List α × Int))))
      (mkBatchesFrom 0 ([] : List (List (List α × Int)))) = .ok bs := by
    simpa [groupItems, groupCookies, mkBatchesFrom] using hbs
  obtain ⟨gsTail, ht1, ht2, ht3, ht4⟩ := runNextGo_partition maxItems dps [] [] bs
    hne (by simp) (by simp)
    (by
      intro g hg
      simp only [List.nil_append, List.mem_singleton] at hg
      subst hg
      exact noEarlyFlush_nil _) h0
  refine ⟨gsTail, ?_, ?_, ?_, ?_⟩
  · rw [ht1]
    simp
  · simpa using ht2
  · simpa using ht3
  · intro g hg
    exact ht4 g (by simpa using hg)

theorem claim_C6_flush_boundaries_witness :
    (∀ p ∈ ([([10, 20], 1), ([30], 2), ([40, 50], 3)] : List (List Int × Int)),
      p.1 ≠ []) ∧
    runNext 3 (([([10, 20], 1), ([30], 2), ([40, 50], 3)] :
      List (List Int × Int)).map (fun p => NextRes.data p.1 p.2) ++
      [NextRes.eof]) =
      .ok [⟨0, [10, 20, 30], [1, 2]⟩, ⟨1, [40, 50], [3]⟩] ∧
    ∃ gs : List (List (List Int × Int)),
      ([([10, 20], 1), ([30], 2), ([40, 50], 3)] : List (List Int × Int)) =
        gs.flatten ∧
      ([⟨0, [10, 20, 30], [1, 2]⟩, ⟨1, [40, 50], [3]⟩] : List (Batch Int)) =
        mkBatchesFrom 0 gs ∧
      List.Chain' (flushForced 3) gs ∧
      (∀ g ∈ gs, noEarlyFlush 3 g) := by
  refine ⟨by decide, by decide, ?_⟩
  exact claim_C6_flush_boundaries 3 [([10, 20], 1), ([30], 2), ([40, 50], 3)]
    [⟨0, [10, 20, 30], [1, 2]⟩, ⟨1, [40, 50], [3]⟩] (by decide) (by decide)

/-! ### The 999-item scenario (claim C9) -/

/-- The scenario input: 99 pulls of 10 items followed by one pull of 9 items
(999 items total), with cookie `i` for pull `i`. -/
def pulls999 : List (List Unit × Int) :=
  (List.range 100).map
    (fun i => (List.replicate (if i = 99 then 9 else 10) (), (i : Int)))

/-- The batches the accumulator emits for the 999-item scenario with
`maxItems = 10`. -/
def bs999 : List (Batch Unit) :=
  (runNext 10 (pulls999.map (fun p => NextRes.data p.1 p.2) ++
    [NextRes.eof])).toOption.getD []

/-- The sequencer's final state when the scenario batches arrive in emission
order and every commit succeeds. -/
def st999 : SeqState Unit :=
  (runCommit (fun _ => true) bs999).toOption.getD ⟨0, [], []⟩

/-- C9: for the stream of 999 items delivered as 99 pulls of 10 and one pull
of 9 with `maxItems = 10`, the accumulator emits exactly 100 batches — 99 of
size 10 and one of size 9 — and on any error-free run of the sequencer
(whatever order the processed batches arrive in) all 100 batches are
acknowledged in creation order: the `Commit` trace is cookie 0, 1, …, 99. -/
theorem claim_C9_scenario_999 (ok : Int → Bool) (bs arr : List (Batch Unit))
    (st : SeqState Unit)
    (hbs : runNext 10 (pulls999.map (fun p => NextRes.data p.1 p.2) ++
      [NextRes.eof]) = .ok bs)
    (hperm : arr.Perm bs)
    (hrun : runCommit ok arr = .ok st) :
    bs.length = 100 ∧
    bs.countP (fun b => b.items.length == 10) = 99 ∧
    bs.countP (fun b => b.items.length == 9) = 1 ∧
    st.acks = (List.range 100).map (fun i => (i : Int)) := by
  have hbs' : bs = (runNext 10 (pulls999.map (fun p => NextRes.data p.1 p.2) ++
      [NextRes.eof])).toOption.getD [] := by
    rw [hbs]
    rfl
  have hseq : bs.map Batch.seq = List.range bs.length :=
    runNextGo_seq 10 _ [] [] [] bs (by simp) hbs
  obtain ⟨hacks, -, -⟩ := runCommit_perm_ok ok bs arr st hseq hperm hrun
  refine ⟨?_, ?_, ?_, ?_⟩
  · rw [hbs']
    decide
  · rw [hbs']
    decide
  · rw [hbs']
    decide
  · rw [hacks, hbs']
    decide

theorem claim_C9_scenario_999_witness :
    runNext 10 (pulls999.map (fun p => NextRes.data p.1 p.2) ++
      [NextRes.eof]) = .ok bs999 ∧
    bs999.Perm bs999 ∧
    runCommit (fun _ => true) bs999 = .ok st999 ∧
    (bs999.length = 100 ∧
     bs999.countP (fun b => b.items.length == 10) = 99 ∧
     bs999.countP (fun b => b.items.length == 9) = 1 ∧
     st999.acks = (List.range 100).map (fun i => (i : Int))) :=
  ⟨by decide, List.Perm.refl _, by decide,
   claim_C9_scenario_999 (fun _ => true) bs999 bs999 st999 (by decide)
     (List.Perm.refl _) (by decide)⟩
